import Mathlib

/-!
Verification development for the script-to-audio podcast pipeline
(`utils.py`: `parse_script`, `_generate_single_audio`, `generate_podcast_audio`,
voice constants), shallowly embedded in Lean.

The transcript parser in the source is
  re.findall(r'(Host|Guest):\s*(.+?)(?=(?:Host|Guest):|$)', script,
             re.DOTALL | re.IGNORECASE)
followed by `speaker.capitalize()` / `text.strip()` and dropping turns whose
text is empty after stripping.  The embedding below models this specific
pattern's matching semantics directly over `List Char`:

* `(Host|Guest)` with IGNORECASE: each pattern character is matched against
  its case-equivalence set.  CPython applies the case-equivalences of
  re._compiler to str-pattern literals, so a pattern letter matches any
  character whose lowercase form lies in its equivalence class; enumerating
  all code points against the source's pattern letters gives the ASCII
  lowercase/uppercase pair for every letter, plus U+017F LATIN SMALL LETTER
  LONG S for the letter `s`;
* `\s*` is greedy; it backtracks only when it would otherwise leave nothing
  for `.+?` (which needs at least one character);
* `.+?` is lazy and, under DOTALL, consumes any character (newlines included),
  stopping at the first position where the lookahead holds;
* the lookahead `(?=(?:Host|Guest):|$)` holds where a label-plus-colon starts,
  at the end of the input, or (Python `$` without MULTILINE) just before a
  newline that ends the input;
* `findall` scans left to right, retrying at the next character after a failed
  position and continuing right after each successful (non-empty) match.
-/

/-- Python's whitespace (`\s` in a str pattern / `str.strip()` /
`str.isspace`): ASCII whitespace, the C1 separators, NEL, and the Unicode
space separators. -/
def isSpace (c : Char) : Bool :=
  (9 ≤ c.toNat && c.toNat ≤ 13) || c.toNat = 32 ||
  (28 ≤ c.toNat && c.toNat ≤ 31) || c.toNat = 133 || c.toNat = 160 ||
  c.toNat = 0x1680 || (0x2000 ≤ c.toNat && c.toNat ≤ 0x200a) ||
  c.toNat = 0x2028 || c.toNat = 0x2029 || c.toNat = 0x202f ||
  c.toNat = 0x205f || c.toNat = 0x3000

/-- One case-insensitive literal pattern character, given as the set of
characters it matches under CPython's IGNORECASE (the characters whose
lowercase form lies in the letter's case-equivalence class). -/
def ciChar (c : Char) (p : List Char) : Bool :=
  decide (c ∈ p)

/-- The pattern `Host` under IGNORECASE: each letter with the full set of
characters it matches.  The letter `s` also matches U+017F LATIN SMALL
LETTER LONG S `ſ` via CPython's case-equivalences; the other letters match
exactly their ASCII lowercase/uppercase pair. -/
def hostPat : List (List Char) :=
  [['h', 'H'], ['o', 'O'], ['s', 'S', 'ſ'], ['t', 'T']]

/-- The pattern `Guest` under IGNORECASE; as in `hostPat`, the letter `s`
also matches U+017F `ſ`. -/
def guestPat : List (List Char) :=
  [['g', 'G'], ['u', 'U'], ['e', 'E'], ['s', 'S', 'ſ'], ['t', 'T']]

/-- Match a case-insensitive pattern at the head of the input, returning the
actually matched characters (the regex capture) and the rest. -/
def startsWithCI : List (List Char) → List Char → Option (List Char × List Char)
  | [], cs => some ([], cs)
  | _ :: _, [] => none
  | p :: ps, c :: cs =>
    if ciChar c p then
      match startsWithCI ps cs with
      | some (m, r) => some (c :: m, r)
      | none => none
    else none

/-- The literal `:` that follows the speaker-label group in the pattern. -/
def matchColon : List Char → Option (List Char)
  | [] => none
  | c :: rest => if c = ':' then some rest else none

/-- The pattern `(Host|Guest):` — try `Host` then `Guest` (their first letters differ, so
at most one alternative can match), then the colon.  Returns the capture of
group 1 (the label as written in the script) and the rest of the input. -/
def matchLabelColon (cs : List Char) : Option (List Char × List Char) :=
  match startsWithCI hostPat cs with
  | some (m, r) =>
    match matchColon r with
    | some r' => some (m, r')
    | none => none
  | none =>
    match startsWithCI guestPat cs with
    | some (m, r) =>
      match matchColon r with
      | some r' => some (m, r')
      | none => none
    | none => none

/-- Does a labelled-turn prefix (`Host:`/`Guest:`, case-insensitively) start
here? -/
def labelAhead (cs : List Char) : Bool :=
  (matchLabelColon cs).isSome

/-- Python's `$` (no MULTILINE): end of input, or just before a newline that
ends the input. -/
def dollar (cs : List Char) : Bool :=
  cs.isEmpty || cs = ['\n']

/-- The lookahead `(?=(?:Host|Guest):|$)`. -/
def lookahead (cs : List Char) : Bool :=
  labelAhead cs || dollar cs

/-- The lazy `.+?` body (DOTALL): consume one character, then keep consuming
until the lookahead holds at the current position.  Returns (consumed body,
rest).  On nonempty input the body is nonempty and the lookahead holds at the
returned rest (the lookahead always holds at the end of input). -/
def takeBody : List Char → List Char × List Char
  | [] => ([], [])
  | c :: rest =>
    if lookahead rest then ([c], rest)
    else
      let p := takeBody rest
      (c :: p.1, p.2)

/-- One match attempt of the whole pattern at the current position: label and
colon, then greedy `\s*`, then the lazy body.  If `\s*` would swallow the
entire remaining input, the engine backtracks one whitespace character so that
`.+?` can consume it (the lookahead then holds via `$`).  Returns
(group 1 capture, group 2 capture, rest after the match). -/
def matchAt (cs : List Char) : Option (List Char × List Char × List Char) :=
  match matchLabelColon cs with
  | none => none
  | some (lab, afterColon) =>
    match afterColon.dropWhile isSpace with
    | [] =>
      match afterColon.getLast? with
      | none => none
      | some c => some (lab, [c], [])
    | c :: r' =>
      some (lab, (takeBody (c :: r')).1, (takeBody (c :: r')).2)

/-- The `re.findall` scanning loop, annotated with the start position of each match.
The fuel argument (instantiated with the input length) makes the recursion
structural: every step either consumes a whole match (at least six characters)
or advances one character past a failed position. -/
def scanPosF : Nat → Nat → List Char → List (Nat × List Char × List Char)
  | 0, _, _ => []
  | fuel + 1, p, cs =>
    match matchAt cs with
    | some (lab, body, after) =>
      (p, lab, body) :: scanPosF fuel (p + (cs.length - after.length)) after
    | none =>
      match cs with
      | [] => []
      | _ :: rest => scanPosF fuel (p + 1) rest

/-- All matches of the pattern in the script, with their start positions. -/
def scan (cs : List Char) : List (Nat × List Char × List Char) :=
  scanPosF cs.length 0 cs

/-- Python `str.capitalize()`: first character uppercased, the rest
lowercased. -/
def pyCapitalize : List Char → List Char
  | [] => []
  | c :: rest => c.toUpper :: rest.map Char.toLower

/-- Leading-whitespace strip (half of Python `str.strip()`). -/
def stripLeading (l : List Char) : List Char :=
  l.dropWhile isSpace

/-- Trailing-whitespace strip (the other half of Python `str.strip()`). -/
def stripTrailing (l : List Char) : List Char :=
  (l.reverse.dropWhile isSpace).reverse

/-- Python `str.strip()` with no arguments. -/
def pyStrip (l : List Char) : List Char :=
  stripTrailing (stripLeading l)

/-- Model of `parse_script` (utils.py lines 171-192): run the findall scan, capitalize
each captured speaker label, strip each captured text, and drop turns whose
text is empty after stripping. -/
def parse_script (script : String) : List (String × String) :=
  (scan script.toList).filterMap (fun t =>
    let cleaned := pyStrip t.2.2
    if cleaned.isEmpty then none
    else some (String.mk (pyCapitalize t.2.1), String.mk cleaned))

/-- Is there a case-insensitive `Host:`/`Guest:` occurrence anywhere in the
input? -/
def hasLabel : List Char → Bool
  | [] => false
  | c :: rest => labelAhead (c :: rest) || hasLabel rest

/-- Is there a case-insensitive `Host:`/`Guest:` occurrence starting at one of
the first `n` positions? -/
def hasLabelIn : Nat → List Char → Bool
  | 0, _ => false
  | _ + 1, [] => false
  | n + 1, c :: rest => labelAhead (c :: rest) || hasLabelIn n rest

/-- Does `pat` occur contiguously anywhere in the input? -/
def occursIn (pat : List Char) : List Char → Bool
  | [] => pat.isEmpty
  | c :: rest => pat.isPrefixOf (c :: rest) || occursIn pat rest

/-! ## The synthesis pipeline (utils.py lines 18-20, 195-279)

External effects are modelled by an environment: the Edge-TTS call for turn
`i` either succeeds (writing `segment_i.mp3`) or raises; `AudioSegment.from_mp3`
for turn `i` either yields a decoded segment of some duration or raises with
some message; each `os.remove` and the final `os.rmdir` either succeeds or
raises.  A pydub segment is represented by the ordered list of its atomic
parts (a decoded per-turn segment or an inserted silence), so that `+`
(concatenation) is list append and duration is the sum of the parts'
durations. -/

/-- Edge-TTS voice for the Host (utils.py line 19). -/
def HOST_VOICE : String := "ko-KR-InJoonNeural"

/-- Edge-TTS voice for the Guest (utils.py line 20). -/
def GUEST_VOICE : String := "ko-KR-SunHiNeural"

/-- Voice selection (utils.py line 235):
`voice = HOST_VOICE if speaker == "Host" else GUEST_VOICE`. -/
def resolveVoice (speaker : String) : String :=
  if speaker = "Host" then HOST_VOICE else GUEST_VOICE

/-- The observable arguments of one `edge_tts.Communicate(text, voice, rate)`
call. -/
structure TTSCall where
  text : String
  voice : String
  rate : String
deriving DecidableEq

/-- Model of `_generate_single_audio` (utils.py lines 195-205): one Edge-TTS call with
the fixed rate adjustment `"+20%"`. -/
def generate_single_audio (text voice : String) : TTSCall :=
  { text := text, voice := voice, rate := "+20%" }

/-- An atomic part of a pydub audio segment: a decoded per-turn segment, or an
inserted silence; both carry their duration in milliseconds. -/
inductive Atom where
  | speech (turn : Nat) (dur : Nat)
  | silence (dur : Nat)
deriving DecidableEq

/-- Duration of one atomic part, in milliseconds. -/
def Atom.dur : Atom → Nat
  | speech _ d => d
  | silence d => d

/-- Duration of a (concatenated) audio segment, in milliseconds. -/
def duration (a : List Atom) : Nat :=
  (a.map Atom.dur).sum

/-- The exceptions the pipeline can raise: the `ValueError` for an unparsable
script (line 226), the `RuntimeError` for a failed per-turn decode
(lines 250-256), and a propagated Edge-TTS failure (line 239, not caught by
the inner try). -/
inductive PodcastError where
  | malformedScript (msg : String)
  | audioDecode (msg : String)
  | ttsFailure
deriving DecidableEq

/-- The `ValueError` message of utils.py line 226. -/
def malformedMsg : String :=
  "대본을 파싱할 수 없습니다. 올바른 형식인지 확인해주세요."

/-- The static part of the `RuntimeError` message of utils.py lines 250-256;
the source appends `str(e)` of the caught decode exception. -/
def decodeErrMsg : String :=
  "오디오 처리 중 오류가 발생했습니다. ffmpeg가 설치되어 있는지 확인해주세요.\n설치 방법 (Mac): brew install ffmpeg\n설치 방법 (Ubuntu): sudo apt-get install ffmpeg\n오류 상세: "

/-- Behaviour of the external world during one run: per-turn TTS success,
per-turn decode result (duration, or the exception text), and whether each
temp-file removal and the temp-directory removal succeed. -/
structure Env where
  ttsOk : Nat → Bool
  decode : Nat → Except String Nat
  removeOk : Nat → Bool
  rmdirOk : Bool

/-- What the per-turn loop has produced when it stops: the TTS calls made, the
`audio_segments` list (decoded segments interleaved with 500 ms pauses), the
temp files written into the temp directory, and the exception (if any) that
aborted the loop. -/
structure LoopOut where
  calls : List TTSCall
  segs : List (List Atom)
  files : List Nat
  err : Option PodcastError
deriving DecidableEq

/-- The per-turn loop of `generate_podcast_audio` (utils.py lines 234-256):
for each parsed turn, resolve the voice, run TTS into `segment_i.mp3`, decode
it, and append the decoded segment and a 500 ms pause to `audio_segments`.
A TTS failure propagates immediately (no file written); a decode failure
raises the `RuntimeError` (the temp file for that turn exists). -/
def runLoop (env : Env) : Nat → List (String × String) → LoopOut
  | _, [] => { calls := [], segs := [], files := [], err := none }
  | i, (speaker, text) :: rest =>
    let call := generate_single_audio text (resolveVoice speaker)
    if env.ttsOk i then
      match env.decode i with
      | .ok dur =>
        let r := runLoop env (i + 1) rest
        { calls := call :: r.calls,
          segs := [Atom.speech i dur] :: [Atom.silence 500] :: r.segs,
          files := i :: r.files,
          err := r.err }
      | .error e =>
        { calls := [call], segs := [], files := [i],
          err := some (.audioDecode (decodeErrMsg ++ e)) }
    else
      { calls := [call], segs := [], files := [], err := some .ttsFailure }

/-- The assembly-and-export block (utils.py lines 258-267): if
`audio_segments` is nonempty, fold the segments together with `+` and export
the result to `output_path`; otherwise skip the export.  Either way the block
raises nothing and the function returns `output_path`; the artifact written to
the destination is `some` combined segment, or `none` when nothing was
exported. -/
def assembleExport (audio_segments : List (List Atom)) (output_path : String) :
    Except PodcastError (String × Option (List Atom)) :=
  match audio_segments with
  | [] => Except.ok (output_path, none)
  | s :: rest => Except.ok (output_path, some (rest.foldl (· ++ ·) s))

instance : DecidableEq (Except PodcastError String) := fun a b =>
  match a, b with
  | .ok x, .ok y => decidable_of_iff (x = y) (by simp)
  | .error x, .error y => decidable_of_iff (x = y) (by simp)
  | .ok _, .error _ => isFalse (by simp)
  | .error _, .ok _ => isFalse (by simp)

/-- The observable outcome of one `generate_podcast_audio` run: the returned
path or raised exception, the TTS calls made, the artifact written to the
destination path (if any), whether the temp directory was created, and which
temp files / whether the temp directory remain on disk after the `finally`
cleanup. -/
structure RunResult where
  outcome : Except PodcastError String
  calls : List TTSCall
  exported : Option (List Atom)
  tempDirCreated : Bool
  tempFilesLeft : List Nat
  tempDirLeft : Bool
deriving DecidableEq

/-- Model of `generate_podcast_audio` (utils.py lines 208-279).  Parse the script and
raise the `ValueError` if no turns were recognized (before any temp directory
is created); otherwise create the temp directory, run the per-turn loop,
assemble and export on success, and in all cases run the `finally` cleanup:
each temp file is removed unless its `os.remove` raises (swallowed), and
`os.rmdir` removes the directory only if it is empty and does not itself raise
(also swallowed). -/
def generate_podcast_audio (env : Env) (script : String)
    (output_path : String) : RunResult :=
  let parsed := parse_script script
  if parsed.isEmpty then
    { outcome := .error (.malformedScript malformedMsg), calls := [],
      exported := none, tempDirCreated := false, tempFilesLeft := [],
      tempDirLeft := false }
  else
    let r := runLoop env 0 parsed
    let left := r.files.filter (fun i => !env.removeOk i)
    let dirLeft := !(left.isEmpty && env.rmdirOk)
    match r.err with
    | some e =>
      { outcome := .error e, calls := r.calls, exported := none,
        tempDirCreated := true, tempFilesLeft := left, tempDirLeft := dirLeft }
    | none =>
      match assembleExport r.segs output_path with
      | .ok (path, art) =>
        { outcome := .ok path, calls := r.calls, exported := art,
          tempDirCreated := true, tempFilesLeft := left,
          tempDirLeft := dirLeft }
      | .error e =>
        { outcome := .error e, calls := r.calls, exported := none,
          tempDirCreated := true, tempFilesLeft := left,
          tempDirLeft := dirLeft }

/-- An environment in which every external operation succeeds and every
decoded segment lasts one second. -/
def envAllOk : Env :=
  { ttsOk := fun _ => true, decode := fun _ => .ok 1000,
    removeOk := fun _ => true, rmdirOk := true }

/-- An environment in which decoding turn `k` raises (message `"codec"`) and
everything else succeeds. -/
def envDecodeFail (k : Nat) : Env :=
  { ttsOk := fun _ => true,
    decode := fun i => if i = k then .error "codec" else .ok 1000,
    removeOk := fun _ => true, rmdirOk := true }

/-- The TTS call the per-turn loop makes for one parsed turn. -/
def planCall (t : String × String) : TTSCall :=
  generate_single_audio t.2 (resolveVoice t.1)

/-- The flattened content of the assembled audio after `n` successful turns
starting at index `k`: each decoded segment followed by its 500 ms pause,
including after the final turn. -/
def planAtoms (d : Nat → Nat) : Nat → Nat → List Atom
  | _, 0 => []
  | k, n + 1 => Atom.speech k (d k) :: Atom.silence 500 :: planAtoms d (k + 1) n

/-- The `audio_segments` list after `n` successful turns starting at index
`k` (the per-turn segment lists, before assembly flattens them). -/
def planSegs (d : Nat → Nat) : Nat → Nat → List (List Atom)
  | _, 0 => []
  | k, n + 1 =>
    [Atom.speech k (d k)] :: [Atom.silence 500] :: planSegs d (k + 1) n

example : parse_script "Host: Hi\nGuest: Hello\nHost: Bye" =
    [("Host", "Hi"), ("Guest", "Hello"), ("Host", "Bye")] := by decide

example : parse_script "" = [] := by decide

example : parse_script "no labels here" = [] := by decide

example : parse_script "Host: Guest: hi" = [("Host", "Guest: hi")] := by decide

example : parse_script "Host: Hi\nGuest: " = [("Host", "Hi")] := by decide

example : parse_script "ignored intro hOsT: one mid GUEST: two tail" =
    [("Host", "one mid"), ("Guest", "two tail")] := by decide

example :
    generate_podcast_audio envAllOk "Host: Hi\nGuest: Yo" "p.mp3" =
      { outcome := .ok "p.mp3",
        calls := [⟨"Hi", "ko-KR-InJoonNeural", "+20%"⟩,
                  ⟨"Yo", "ko-KR-SunHiNeural", "+20%"⟩],
        exported := some [.speech 0 1000, .silence 500,
                          .speech 1 1000, .silence 500],
        tempDirCreated := true, tempFilesLeft := [], tempDirLeft := false } := by
  decide

example :
    (generate_podcast_audio (envDecodeFail 1) "Host: Hi\nGuest: Yo" "p.mp3").outcome
      = .error (.audioDecode (decodeErrMsg ++ "codec")) := by decide

example :
    (generate_podcast_audio envAllOk "nothing recognizable" "p.mp3").outcome
      = .error (.malformedScript malformedMsg) := by decide

/-! ## Facts about whitespace stripping -/

theorem dropWhile_decomp {α : Type} (p : α → Bool) (l : List α) :
    ∃ u, l = u ++ l.dropWhile p ∧ ∀ c ∈ u, p c = true := by
  induction l with
  | nil => exact ⟨[], rfl, by simp⟩
  | cons x xs ih =>
    by_cases h : p x
    · obtain ⟨u, hu, hall⟩ := ih
      refine ⟨x :: u, ?_, ?_⟩
      · rw [List.dropWhile_cons_of_pos h, List.cons_append, ← hu]
      · intro c hc
        rcases List.mem_cons.mp hc with rfl | hc
        · exact h
        · exact hall c hc
    · exact ⟨[], by simp [List.dropWhile_cons_of_neg h], by simp⟩

theorem dropWhile_eq_self_of_head {α : Type} (p : α → Bool) (l : List α)
    (h : ∀ c, l.head? = some c → p c = false) : l.dropWhile p = l := by
  cases l with
  | nil => rfl
  | cons x xs => exact List.dropWhile_cons_of_neg (by simp [h x rfl])

theorem stripTrailing_decomp (l : List Char) :
    ∃ u, l = stripTrailing l ++ u ∧ ∀ c ∈ u, isSpace c = true := by
  obtain ⟨u, hu, hall⟩ := dropWhile_decomp isSpace l.reverse
  refine ⟨u.reverse, ?_, by simpa using hall⟩
  conv_lhs => rw [← l.reverse_reverse, hu]
  simp [stripTrailing]

theorem pyStrip_decomp (l : List Char) :
    ∃ u, stripLeading l = pyStrip l ++ u ∧ ∀ c ∈ u, isSpace c = true :=
  stripTrailing_decomp (stripLeading l)

theorem head?_pyStrip (l : List Char) (c : Char) (h : (pyStrip l).head? = some c) :
    isSpace c = false := by
  obtain ⟨u, hu, _⟩ := pyStrip_decomp l
  have h2 := List.head?_dropWhile_not isSpace l
  have h3 : (stripLeading l).head? = some c := by
    rw [hu]
    cases hps : pyStrip l with
    | nil => rw [hps] at h; simp at h
    | cons d ds =>
      rw [hps] at h
      simp only [List.head?_cons, Option.some.injEq] at h
      simpa using h
  rw [show stripLeading l = l.dropWhile isSpace from rfl] at h3
  rw [h3] at h2
  exact h2

theorem revHead?_pyStrip (l : List Char) (c : Char)
    (h : (pyStrip l).reverse.head? = some c) : isSpace c = false := by
  have h2 := List.head?_dropWhile_not isSpace (stripLeading l).reverse
  have hrw : (pyStrip l).reverse = (stripLeading l).reverse.dropWhile isSpace := by
    simp [pyStrip, stripTrailing]
  rw [hrw] at h
  rw [h] at h2
  exact h2

theorem pyStrip_idem (l : List Char) : pyStrip (pyStrip l) = pyStrip l := by
  have h1 : stripLeading (pyStrip l) = pyStrip l :=
    dropWhile_eq_self_of_head _ _ (fun c hc => head?_pyStrip l c hc)
  show stripTrailing (stripLeading (pyStrip l)) = pyStrip l
  rw [h1]
  show ((pyStrip l).reverse.dropWhile isSpace).reverse = pyStrip l
  rw [dropWhile_eq_self_of_head _ _ (fun c hc => revHead?_pyStrip l c hc)]
  simp

theorem stripTrailing_append_space (l : List Char) (c : Char) (h : isSpace c = true) :
    stripTrailing (l ++ [c]) = stripTrailing l := by
  simp [stripTrailing, h]

theorem pyStrip_append_space (l : List Char) (c : Char) (h : isSpace c = true) :
    pyStrip (l ++ [c]) = pyStrip l := by
  show stripTrailing (stripLeading (l ++ [c])) = _
  rw [show stripLeading (l ++ [c]) = (l ++ [c]).dropWhile isSpace from rfl,
    List.dropWhile_append]
  split
  · rename_i he
    have h0 : stripLeading l = [] := by
      simpa [stripLeading] using he
    have h1 : [c].dropWhile isSpace = [] := by simp [h]
    rw [h1]
    simp [pyStrip, h0, stripTrailing]
  · exact stripTrailing_append_space _ c h

theorem pyStrip_singleton_space (c : Char) (h : isSpace c = true) :
    pyStrip [c] = [] := by
  simp [pyStrip, stripLeading, stripTrailing, h]

theorem pyStrip_of_head_not_space (l : List Char) (c : Char) (hc : l.head? = some c)
    (h : isSpace c = false) : pyStrip l = stripTrailing l := by
  show stripTrailing (l.dropWhile isSpace) = _
  rw [dropWhile_eq_self_of_head isSpace l (fun d hd => by
    rw [hc] at hd; cases hd; exact h)]

theorem stripLeading_ne_nil_of_pyStrip (l : List Char) (h : pyStrip l ≠ []) :
    stripLeading l ≠ [] := by
  intro h0
  exact h (by simp [pyStrip, h0, stripTrailing])

/-! ## Facts about label matching -/

theorem startsWithCI_eq (ps : List (List Char)) :
    ∀ cs m r, startsWithCI ps cs = some (m, r) →
      m ++ r = cs ∧ List.Forall₂ (fun c p => ciChar c p = true) m ps := by
  induction ps with
  | nil =>
    intro cs m r h
    simp only [startsWithCI, Option.some.injEq, Prod.mk.injEq] at h
    obtain ⟨rfl, rfl⟩ := h
    exact ⟨rfl, List.Forall₂.nil⟩
  | cons p ps ih =>
    intro cs m r h
    cases cs with
    | nil => simp [startsWithCI] at h
    | cons c cs' =>
      simp only [startsWithCI] at h
      split at h
      · rename_i hci
        cases hsw : startsWithCI ps cs' with
        | none => rw [hsw] at h; simp at h
        | some pr =>
          obtain ⟨m', r'⟩ := pr
          rw [hsw] at h
          simp only [Option.some.injEq, Prod.mk.injEq] at h
          obtain ⟨hm, hr⟩ := h
          obtain ⟨happ, hforall⟩ := ih cs' m' r' hsw
          subst hm
          subst hr
          exact ⟨by simp [← happ], List.Forall₂.cons hci hforall⟩
      · simp at h

theorem startsWithCI_of_forall (m : List Char) (ps : List (List Char)) (z : List Char)
    (h : List.Forall₂ (fun c p => ciChar c p = true) m ps) :
    startsWithCI ps (m ++ z) = some (m, z) := by
  induction h with
  | nil => rfl
  | cons hcp _ ih => simp [startsWithCI, hcp, ih]

theorem matchColon_eq (l r : List Char) (h : matchColon l = some r) : l = ':' :: r := by
  cases l with
  | nil => simp [matchColon] at h
  | cons c cs =>
    simp only [matchColon] at h
    split at h
    · rename_i hc
      cases h
      rw [hc]
    · simp at h

theorem matchLabelColon_eq (cs : List Char) (lab r : List Char)
    (h : matchLabelColon cs = some (lab, r)) :
    (List.Forall₂ (fun c p => ciChar c p = true) lab hostPat ∨
     List.Forall₂ (fun c p => ciChar c p = true) lab guestPat) ∧
    cs = lab ++ ':' :: r := by
  unfold matchLabelColon at h
  split at h
  case _ m r1 h1 =>
    split at h
    case _ r2 h2 =>
      simp only [Option.some.injEq, Prod.mk.injEq] at h
      obtain ⟨hm, hr⟩ := h
      subst hm
      subst hr
      obtain ⟨happ, hforall⟩ := startsWithCI_eq hostPat cs m r1 h1
      exact ⟨Or.inl hforall, by rw [← happ, matchColon_eq r1 r2 h2]⟩
    case _ => simp at h
  case _ h1 =>
    split at h
    case _ m r1 h3 =>
      split at h
      case _ r2 h2 =>
        simp only [Option.some.injEq, Prod.mk.injEq] at h
        obtain ⟨hm, hr⟩ := h
        subst hm
        subst hr
        obtain ⟨happ, hforall⟩ := startsWithCI_eq guestPat cs m r1 h3
        exact ⟨Or.inr hforall, by rw [← happ, matchColon_eq r1 r2 h2]⟩
      case _ => simp at h
    case _ => simp at h

theorem ciChar_mem (c : Char) (p : List Char) (h : ciChar c p = true) : c ∈ p :=
  of_decide_eq_true h

theorem ciChar_cases2 (c a b : Char) (h : ciChar c [a, b] = true) :
    c = a ∨ c = b := by
  simpa using ciChar_mem c [a, b] h

theorem ciChar_cases3 (c a b e : Char) (h : ciChar c [a, b, e] = true) :
    c = a ∨ c = b ∨ c = e := by
  simpa using ciChar_mem c [a, b, e] h

theorem matchLabelColon_append (cs m r ys : List Char)
    (h : matchLabelColon cs = some (m, r)) :
    matchLabelColon (cs ++ ys) = some (m, r ++ ys) := by
  obtain ⟨hf, hcs⟩ := matchLabelColon_eq cs m r h
  subst hcs
  rcases hf with hf | hf
  · have h1 : startsWithCI hostPat (m ++ ':' :: (r ++ ys)) = some (m, ':' :: (r ++ ys)) :=
      startsWithCI_of_forall m hostPat _ hf
    unfold matchLabelColon
    rw [show (m ++ ':' :: r) ++ ys = m ++ ':' :: (r ++ ys) from by simp, h1]
    simp [matchColon]
  · have hne : startsWithCI hostPat ((m ++ ':' :: r) ++ ys) = none := by
      cases hf with
      | cons hc _ =>
        rcases ciChar_cases2 _ _ _ hc with rfl | rfl <;> rfl
    have h1 : startsWithCI guestPat (m ++ ':' :: (r ++ ys)) = some (m, ':' :: (r ++ ys)) :=
      startsWithCI_of_forall m guestPat _ hf
    unfold matchLabelColon
    rw [hne, show (m ++ ':' :: r) ++ ys = m ++ ':' :: (r ++ ys) from by simp, h1]
    simp [matchColon]

theorem labelAhead_append (xs ys : List Char) (h : labelAhead xs = true) :
    labelAhead (xs ++ ys) = true := by
  unfold labelAhead at h ⊢
  rw [Option.isSome_iff_exists] at h
  obtain ⟨⟨m, r⟩, hm⟩ := h
  rw [matchLabelColon_append xs m r ys hm]
  rfl

theorem capitalize_host (m : List Char)
    (h : List.Forall₂ (fun c p => ciChar c p = true) m hostPat) :
    pyCapitalize m = ['H', 'o', 's', 't'] ∨ pyCapitalize m = ['H', 'o', 'ſ', 't'] := by
  simp only [hostPat] at h
  cases h with | cons h1 h =>
  cases h with | cons h2 h =>
  cases h with | cons h3 h =>
  cases h with | cons h4 h =>
  cases h
  rcases ciChar_cases2 _ _ _ h1 with rfl | rfl <;>
    rcases ciChar_cases2 _ _ _ h2 with rfl | rfl <;>
      rcases ciChar_cases3 _ _ _ _ h3 with rfl | rfl | rfl <;>
        rcases ciChar_cases2 _ _ _ h4 with rfl | rfl <;>
          decide

theorem capitalize_guest (m : List Char)
    (h : List.Forall₂ (fun c p => ciChar c p = true) m guestPat) :
    pyCapitalize m = ['G', 'u', 'e', 's', 't']
      ∨ pyCapitalize m = ['G', 'u', 'e', 'ſ', 't'] := by
  simp only [guestPat] at h
  cases h with | cons h1 h =>
  cases h with | cons h2 h =>
  cases h with | cons h3 h =>
  cases h with | cons h4 h =>
  cases h with | cons h5 h =>
  cases h
  rcases ciChar_cases2 _ _ _ h1 with rfl | rfl <;>
    rcases ciChar_cases2 _ _ _ h2 with rfl | rfl <;>
      rcases ciChar_cases2 _ _ _ h3 with rfl | rfl <;>
        rcases ciChar_cases3 _ _ _ _ h4 with rfl | rfl | rfl <;>
          rcases ciChar_cases2 _ _ _ h5 with rfl | rfl <;>
            decide

/-! ## Facts about the lazy body and single-match attempts -/

theorem lookahead_nil : lookahead [] = true := by decide

theorem takeBody_append (cs : List Char) (h : cs ≠ []) :
    (takeBody cs).1 ++ (takeBody cs).2 = cs := by
  induction cs with
  | nil => simp at h
  | cons c rest ih =>
    cases hl : lookahead rest with
    | true => simp [takeBody, hl]
    | false =>
      have hr : rest ≠ [] := by
        intro h0
        rw [h0, lookahead_nil] at hl
        cases hl
      simp only [takeBody, hl, Bool.false_eq_true, if_false, List.cons_append,
        List.cons.injEq, true_and]
      exact ih hr

theorem takeBody_cons (c : Char) (rest : List Char) :
    ∃ bs, (takeBody (c :: rest)).1 = c :: bs := by
  cases hl : lookahead rest with
  | true => exact ⟨[], by simp [takeBody, hl]⟩
  | false => exact ⟨(takeBody rest).1, by simp [takeBody, hl]⟩

theorem takeBody_inner (cs : List Char) :
    ∀ i, 1 ≤ i → i < (takeBody cs).1.length →
      labelAhead ((takeBody cs).1.drop i ++ (takeBody cs).2) = false := by
  induction cs with
  | nil => intro i h1 h2; simp [takeBody] at h2
  | cons c rest ih =>
    intro i h1 h2
    cases hl : lookahead rest with
    | true =>
      rw [show takeBody (c :: rest) = ([c], rest) from by simp [takeBody, hl]] at h2
      simp at h2
      omega
    | false =>
      have hr : rest ≠ [] := by
        intro h0
        rw [h0, lookahead_nil] at hl
        cases hl
      have htb : takeBody (c :: rest) = (c :: (takeBody rest).1, (takeBody rest).2) := by
        simp [takeBody, hl]
      rw [htb] at h2 ⊢
      obtain ⟨j, rfl⟩ : ∃ j, i = j + 1 := ⟨i - 1, by omega⟩
      simp only [List.drop_succ_cons]
      rcases Nat.eq_zero_or_pos j with rfl | hj
    
      · rw [List.drop_zero, takeBody_append rest hr]
        have : labelAhead rest = false := by
          rcases Bool.or_eq_false_iff.mp (by simpa [lookahead] using hl) with ⟨h5, _⟩
          exact h5
        exact this
      · exact ih (j) (by omega) (by simp at h2; omega)

theorem hasLabel_cons (c : Char) (rest : List Char) (h : hasLabel (c :: rest) = false) :
    labelAhead (c :: rest) = false ∧ hasLabel rest = false := by
  simpa [hasLabel] using h

theorem takeBody_nolabel (cs : List Char) (hne : cs ≠ []) (h : hasLabel cs = false) :
    takeBody cs = (cs, []) ∨
      ∃ b, b ≠ [] ∧ cs = b ++ ['\n'] ∧ takeBody cs = (b, ['\n']) := by
  induction cs with
  | nil => simp at hne
  | cons c rest ih =>
    obtain ⟨hla, hrest⟩ := hasLabel_cons c rest h
    cases rest with
    | nil => left; simp [takeBody, lookahead_nil]
    | cons d rest' =>
      have hlad : labelAhead (d :: rest') = false := (hasLabel_cons d rest' hrest).1
      cases hl : lookahead (d :: rest') with
      | true =>
        have hdollar : dollar (d :: rest') = true := by
          rcases Bool.or_eq_true_iff.mp (by simpa [lookahead] using hl) with h5 | h5
          · rw [hlad] at h5; cases h5
          · exact h5
        have : d :: rest' = ['\n'] := by
          simpa [dollar] using hdollar
        rw [this]
        right
        refine ⟨[c], by simp, rfl, ?_⟩
        rw [show takeBody (c :: ['\n']) = ([c], ['\n']) from by
          simp [takeBody, show lookahead ['\n'] = true from by decide]]
      | false =>
        have htb : takeBody (c :: d :: rest') =
            (c :: (takeBody (d :: rest')).1, (takeBody (d :: rest')).2) := by
          simp [takeBody, hl]
        rcases ih (by simp) hrest with h5 | ⟨b, hb, hbeq, h5⟩
        · left
          rw [htb, h5]
        · right
          refine ⟨c :: b, by simp, by rw [hbeq]; rfl, ?_⟩
          rw [htb, h5]

theorem matchAt_spec (cs lab body after : List Char)
    (h : matchAt cs = some (lab, body, after)) :
    ∃ afterColon, matchLabelColon cs = some (lab, afterColon) ∧
      ((∃ c, stripLeading afterColon = [] ∧ afterColon.getLast? = some c ∧
        body = [c] ∧ after = []) ∨
       (stripLeading afterColon ≠ [] ∧ body = (takeBody (stripLeading afterColon)).1 ∧
        after = (takeBody (stripLeading afterColon)).2)) := by
  unfold matchAt at h
  split at h
  case _ => simp at h
  case _ lab' ac heq =>
    refine ⟨ac, ?_⟩
    split at h
    case _ hdrop =>
      split at h
      case _ => simp at h
      case _ c hlast =>
        simp only [Option.some.injEq, Prod.mk.injEq] at h
        obtain ⟨rfl, rfl, rfl⟩ := h
        exact ⟨heq, Or.inl ⟨c, by simpa [stripLeading] using hdrop, hlast, rfl, rfl⟩⟩
    case _ x xs hdrop =>
      simp only [Option.some.injEq, Prod.mk.injEq] at h
      obtain ⟨rfl, rfl, rfl⟩ := h
      refine ⟨heq, Or.inr ⟨?_, ?_, ?_⟩⟩
      · simp [stripLeading, hdrop]
      · simp [stripLeading, hdrop]
      · simp [stripLeading, hdrop]

theorem length_dropWhile_le' {α : Type} (p : α → Bool) (l : List α) :
    (l.dropWhile p).length ≤ l.length := by
  obtain ⟨u, hu, -⟩ := dropWhile_decomp p l
  conv_rhs => rw [hu]
  simp

theorem matchAt_after_lt (cs lab body after : List Char)
    (h : matchAt cs = some (lab, body, after)) : after.length < cs.length := by
  obtain ⟨ac, hml, hcases⟩ := matchAt_spec cs lab body after h
  obtain ⟨-, hcs⟩ := matchLabelColon_eq cs lab ac hml
  have hlen : cs.length = lab.length + 1 + ac.length := by
    rw [hcs]; simp; omega
  rcases hcases with ⟨c, -, -, -, rfl⟩ | ⟨hne, -, hafter⟩
  · simp only [List.length_nil, hlen]; omega
  · have h1 : (takeBody (stripLeading ac)).1 ++ (takeBody (stripLeading ac)).2
        = stripLeading ac := takeBody_append _ hne
    have h2 : (takeBody (stripLeading ac)).1 ≠ [] := by
      cases hsl : stripLeading ac with
      | nil => exact absurd hsl hne
      | cons d ds =>
        obtain ⟨bs, hbs⟩ := takeBody_cons d ds
        rw [hbs]
        simp
    have h3 : (stripLeading ac).length ≤ ac.length := length_dropWhile_le' isSpace ac
    have h4 : (takeBody (stripLeading ac)).1.length + (takeBody (stripLeading ac)).2.length
        = (stripLeading ac).length := by
      rw [← List.length_append, h1]
    have h5 : 1 ≤ (takeBody (stripLeading ac)).1.length := by
      cases hx : (takeBody (stripLeading ac)).1 with
      | nil => exact absurd hx h2
      | cons y ys => simp
    rw [hafter]
    omega

theorem matchAt_none_of_labelAhead (cs : List Char) (h : labelAhead cs = false) :
    matchAt cs = none := by
  unfold matchAt
  cases hm : matchLabelColon cs with
  | none => rfl
  | some pr => rw [labelAhead, hm] at h; simp at h

/-! ## Facts about the findall scan -/

theorem scanPosF_nil (f p : Nat) : scanPosF f p [] = [] := by
  cases f with
  | zero => rfl
  | succ f => rfl

theorem scanPosF_fuel : ∀ n cs, cs.length ≤ n → ∀ f1 f2 p, cs.length ≤ f1 →
    cs.length ≤ f2 → scanPosF f1 p cs = scanPosF f2 p cs := by
  intro n
  induction n with
  | zero =>
    intro cs hcs f1 f2 p _ _
    have : cs = [] := List.length_eq_zero.mp (Nat.le_zero.mp hcs)
    subst this
    rw [scanPosF_nil, scanPosF_nil]
  | succ n ih =>
    intro cs hcs f1 f2 p h1 h2
    cases cs with
    | nil => rw [scanPosF_nil, scanPosF_nil]
    | cons c rest =>
      have hlen : (c :: rest).length = rest.length + 1 := by simp
      obtain ⟨f1', rfl⟩ : ∃ k, f1 = k + 1 := ⟨f1 - 1, by simp at h1; omega⟩
      obtain ⟨f2', rfl⟩ : ∃ k, f2 = k + 1 := ⟨f2 - 1, by simp at h2; omega⟩
      cases hm : matchAt (c :: rest) with
      | some t =>
        obtain ⟨lab, body, after⟩ := t
        have hlt := matchAt_after_lt _ _ _ _ hm
        simp only [scanPosF, hm]
        congr 1
        exact ih after (by simp at hcs hlt; omega) f1' f2' _
          (by simp at h1 hlt; omega) (by simp at h2 hlt; omega)
      | none =>
        simp only [scanPosF, hm]
        exact ih rest (by simp at hcs; omega) f1' f2' _
          (by simp at h1; omega) (by simp at h2; omega)

theorem scanPosF_mem : ∀ f p cs q lab body, (q, lab, body) ∈ scanPosF f p cs →
    ∃ cs' after, matchAt cs' = some (lab, body, after) := by
  intro f
  induction f with
  | zero => intro p cs q lab body h; simp [scanPosF] at h
  | succ f ih =>
    intro p cs q lab body h
    cases hm : matchAt cs with
    | some t =>
      obtain ⟨l, b, a⟩ := t
      rw [show scanPosF (f + 1) p cs =
        (p, l, b) :: scanPosF f (p + (cs.length - a.length)) a from by
          simp only [scanPosF, hm]] at h
      rcases List.mem_cons.mp h with heq | htail
      · obtain ⟨rfl, rfl, rfl⟩ := Prod.mk.injEq .. ▸ (by
          simpa using heq : q = p ∧ lab = l ∧ body = b)
        exact ⟨cs, a, hm⟩
      · exact ih _ _ _ _ _ htail
    | none =>
      cases cs with
      | nil => rw [scanPosF_nil] at h; simp at h
      | cons c rest =>
        rw [show scanPosF (f + 1) p (c :: rest) = scanPosF f (p + 1) rest from by
          simp only [scanPosF, hm]] at h
        exact ih _ _ _ _ _ h

theorem scanPosF_pos_le : ∀ f p cs q x, (q, x) ∈ scanPosF f p cs → p ≤ q := by
  intro f
  induction f with
  | zero => intro p cs q x h; simp [scanPosF] at h
  | succ f ih =>
    intro p cs q x h
    cases hm : matchAt cs with
    | some t =>
      obtain ⟨l, b, a⟩ := t
      rw [show scanPosF (f + 1) p cs =
        (p, l, b) :: scanPosF f (p + (cs.length - a.length)) a from by
          simp only [scanPosF, hm]] at h
      rcases List.mem_cons.mp h with heq | htail
      · cases heq; omega
      · have := ih _ _ _ _ htail
        omega
    | none =>
      cases cs with
      | nil => rw [scanPosF_nil] at h; simp at h
      | cons c rest =>
        rw [show scanPosF (f + 1) p (c :: rest) = scanPosF f (p + 1) rest from by
          simp only [scanPosF, hm]] at h
        have := ih _ _ _ _ h
        omega

theorem scanPosF_pairwise : ∀ f p cs,
    ((scanPosF f p cs).map (fun t => t.1)).Pairwise (· < ·) := by
  intro f
  induction f with
  | zero => intro p cs; simp [scanPosF]
  | succ f ih =>
    intro p cs
    cases hm : matchAt cs with
    | some t =>
      obtain ⟨l, b, a⟩ := t
      have hlt := matchAt_after_lt _ _ _ _ hm
      rw [show scanPosF (f + 1) p cs =
        (p, l, b) :: scanPosF f (p + (cs.length - a.length)) a from by
          simp only [scanPosF, hm]]
      rw [List.map_cons]
      refine List.Pairwise.cons ?_ (ih _ _)
      intro q hq
      obtain ⟨⟨q', x⟩, hmem, hfst⟩ := List.mem_map.mp hq
      cases hfst
      have := scanPosF_pos_le f _ a _ _ hmem
      omega
    | none =>
      cases cs with
      | nil => rw [scanPosF_nil]; simp
      | cons c rest =>
        rw [show scanPosF (f + 1) p (c :: rest) = scanPosF f (p + 1) rest from by
          simp only [scanPosF, hm]]
        exact ih _ _

theorem scanPosF_nolabel : ∀ f p cs, hasLabel cs = false → scanPosF f p cs = [] := by
  intro f
  induction f with
  | zero => intro p cs _; rfl
  | succ f ih =>
    intro p cs h
    cases cs with
    | nil => rw [scanPosF_nil]
    | cons c rest =>
      obtain ⟨hla, hrest⟩ := hasLabel_cons c rest h
      rw [show scanPosF (f + 1) p (c :: rest) = scanPosF f (p + 1) rest from by
        simp only [scanPosF, matchAt_none_of_labelAhead _ hla]]
      exact ih _ _ hrest

theorem scanPosF_proj_pos : ∀ f p1 p2 cs,
    (scanPosF f p1 cs).map (fun t => t.2) = (scanPosF f p2 cs).map (fun t => t.2) := by
  intro f
  induction f with
  | zero => intro p1 p2 cs; rfl
  | succ f ih =>
    intro p1 p2 cs
    cases hm : matchAt cs with
    | some t =>
      obtain ⟨l, b, a⟩ := t
      rw [show scanPosF (f + 1) p1 cs =
        (p1, l, b) :: scanPosF f (p1 + (cs.length - a.length)) a from by
          simp only [scanPosF, hm]]
      rw [show scanPosF (f + 1) p2 cs =
        (p2, l, b) :: scanPosF f (p2 + (cs.length - a.length)) a from by
          simp only [scanPosF, hm]]
      rw [List.map_cons, List.map_cons, ih]
    | none =>
      cases cs with
      | nil => rw [scanPosF_nil, scanPosF_nil]
      | cons c rest =>
        rw [show scanPosF (f + 1) p1 (c :: rest) = scanPosF f (p1 + 1) rest from by
          simp only [scanPosF, hm]]
        rw [show scanPosF (f + 1) p2 (c :: rest) = scanPosF f (p2 + 1) rest from by
          simp only [scanPosF, hm]]
        exact ih _ _ _

theorem scanPosF_skip : ∀ n cs p f1 f2, hasLabelIn n cs = false → n ≤ cs.length →
    cs.length ≤ f1 → (cs.drop n).length ≤ f2 →
    (scanPosF f1 p cs).map (fun t => t.2)
      = (scanPosF f2 p (cs.drop n)).map (fun t => t.2) := by
  intro n
  induction n with
  | zero =>
    intro cs p f1 f2 _ _ h1 h2
    rw [List.drop_zero] at h2 ⊢
    rw [scanPosF_fuel cs.length cs (Nat.le_refl _) f1 f2 p h1 h2]
  | succ n ih =>
    intro cs p f1 f2 hno hn h1 h2
    cases cs with
    | nil => simp at hn
    | cons c rest =>
      have hparts : labelAhead (c :: rest) = false ∧ hasLabelIn n rest = false := by
        simpa [hasLabelIn] using hno
      obtain ⟨f1', rfl⟩ : ∃ k, f1 = k + 1 := ⟨f1 - 1, by simp at h1; omega⟩
      rw [show scanPosF (f1' + 1) p (c :: rest) = scanPosF f1' (p + 1) rest from by
        simp only [scanPosF, matchAt_none_of_labelAhead _ hparts.1]]
      rw [List.drop_succ_cons] at h2 ⊢
      rw [ih rest (p + 1) f1' f2 hparts.2 (by simp at hn; omega)
        (by simp at h1; omega) h2]
      exact scanPosF_proj_pos f2 (p + 1) p (rest.drop n)

/-! ## Facts about parse_script -/

theorem drop_append_le {α : Type} (l1 l2 : List α) :
    ∀ n, n ≤ l1.length → (l1 ++ l2).drop n = l1.drop n ++ l2 := by
  induction l1 with
  | nil =>
    intro n hn
    simp at hn
    subst hn
    simp
  | cons x xs ih =>
    intro n hn
    cases n with
    | zero => simp
    | succ m =>
      simp only [List.cons_append, List.drop_succ_cons]
      exact ih m (by simp at hn; omega)

theorem labelAhead_nil : labelAhead [] = false := by decide

theorem hasLabel_eq_false_of (l : List Char)
    (h : ∀ i, labelAhead (l.drop i) = false) : hasLabel l = false := by
  induction l with
  | nil => rfl
  | cons c rest ih =>
    have h0 := h 0
    rw [List.drop_zero] at h0
    show (labelAhead (c :: rest) || hasLabel rest) = false
    rw [h0, ih (fun i => by
      have := h (i + 1)
      simpa using this)]
    rfl

theorem parse_mem (script : String) (sp tx : String)
    (h : (sp, tx) ∈ parse_script script) :
    ∃ pos lab body, (pos, lab, body) ∈ scan script.toList ∧
      pyStrip body ≠ [] ∧ sp = String.mk (pyCapitalize lab) ∧
      tx = String.mk (pyStrip body) := by
  unfold parse_script at h
  obtain ⟨t, htmem, hteq⟩ := List.mem_filterMap.mp h
  obtain ⟨pos, lab, body⟩ := t
  by_cases he : (pyStrip body).isEmpty = true
  · simp only [he, if_true] at hteq
    simp at hteq
  · simp only [Bool.not_eq_true] at he
    simp only [he, Bool.false_eq_true, if_false, Option.some.injEq,
      Prod.mk.injEq] at hteq
    exact ⟨pos, lab, body, htmem, by simpa using he, hteq.1.symm, hteq.2.symm⟩

theorem parse_speaker (script : String) (sp tx : String)
    (h : (sp, tx) ∈ parse_script script) :
    sp = "Host" ∨ sp = "Hoſt" ∨ sp = "Guest" ∨ sp = "Gueſt" := by
  obtain ⟨pos, lab, body, hmem, -, hsp, -⟩ := parse_mem script sp tx h
  obtain ⟨cs', after, hm⟩ := scanPosF_mem _ _ _ _ _ _ hmem
  obtain ⟨ac, hml, -⟩ := matchAt_spec _ _ _ _ hm
  obtain ⟨hforall, -⟩ := matchLabelColon_eq _ _ _ hml
  rcases hforall with hf | hf
  · rcases capitalize_host lab hf with hc | hc
    · left
      rw [hsp, hc]
    · right; left
      rw [hsp, hc]
  · rcases capitalize_guest lab hf with hc | hc
    · right; right; left
      rw [hsp, hc]
    · right; right; right
      rw [hsp, hc]

theorem parse_text_trimmed (script : String) (sp tx : String)
    (h : (sp, tx) ∈ parse_script script) :
    tx ≠ "" ∧ pyStrip tx.toList = tx.toList := by
  obtain ⟨pos, lab, body, hmem, hne, -, htx⟩ := parse_mem script sp tx h
  constructor
  · intro h0
    apply hne
    have h1 : String.mk (pyStrip body) = "" := htx.symm.trans h0
    simpa using congrArg String.data h1
  · rw [htx]
    show pyStrip (pyStrip body) = pyStrip body
    exact pyStrip_idem body

theorem dropWhile_eq_nil_forall {α : Type} (p : α → Bool) (l : List α)
    (h : l.dropWhile p = []) : ∀ c ∈ l, p c = true := by
  obtain ⟨u, hu, hall⟩ := dropWhile_decomp p l
  rw [h, List.append_nil] at hu
  intro c hc
  exact hall c (hu ▸ hc)

theorem parse_text_no_inner_label (script : String) (sp tx : String)
    (h : (sp, tx) ∈ parse_script script) : hasLabel tx.toList.tail = false := by
  obtain ⟨pos, lab, body, hmem, hne, -, htx⟩ := parse_mem script sp tx h
  obtain ⟨cs', after, hm⟩ := scanPosF_mem _ _ _ _ _ _ hmem
  obtain ⟨ac, hml, hcases⟩ := matchAt_spec _ _ _ _ hm
  have htxl : tx.toList = pyStrip body := congrArg String.data htx
  rcases hcases with ⟨c, hdrop, hlast, rfl, -⟩ | ⟨hr, hbody, hafter⟩
  · exfalso
    have hcmem : c ∈ ac := List.mem_of_getLast?_eq_some hlast
    have hcsp : isSpace c = true :=
      dropWhile_eq_nil_forall isSpace ac hdrop c hcmem
    exact hne (pyStrip_singleton_space c hcsp)
  · cases hsl : stripLeading ac with
    | nil => exact absurd hsl hr
    | cons d ds =>
      have hd : isSpace d = false := by
        have h2 := List.head?_dropWhile_not isSpace ac
        rw [show ac.dropWhile isSpace = d :: ds from hsl] at h2
        simpa using h2
      obtain ⟨bs, hbs⟩ := takeBody_cons d ds
      rw [hsl] at hbody hafter
      have hbodyhead : body.head? = some d := by
        rw [hbody, hbs]
        rfl
      have hps : pyStrip body = stripTrailing body :=
        pyStrip_of_head_not_space body d hbodyhead hd
      obtain ⟨u, hu, -⟩ := stripTrailing_decomp body
      rw [← hps] at hu
      apply hasLabel_eq_false_of
      intro i
      rw [htxl, ← List.drop_one, List.drop_drop]
      by_cases hi : 1 + i < (pyStrip body).length
      · by_contra hcon
        rw [Bool.not_eq_false] at hcon
        have hlen1 : (pyStrip body).length ≤ body.length := by
          conv_rhs => rw [hu]
          simp
        have hdecomp : body.drop (1 + i) = (pyStrip body).drop (1 + i) ++ u := by
          conv_lhs => rw [hu]
          exact drop_append_le _ _ _ (by omega)
        have h3 : labelAhead (body.drop (1 + i)) = true := by
          rw [hdecomp]
          exact labelAhead_append _ _ hcon
        have h4 : labelAhead (body.drop (1 + i) ++ after) = true :=
          labelAhead_append _ _ h3
        have h5 := takeBody_inner (d :: ds) (1 + i) (by omega) (by
          rw [← hbody]
          omega)
        rw [← hbody, ← hafter] at h5
        rw [h5] at h4
        cases h4
      · rw [List.drop_eq_nil_of_le (by omega)]
        exact labelAhead_nil

/-! ## Scanning a script with one labelled turn (edge-case policy) -/

theorem hasLabel_drop (cs : List Char) (h : hasLabel cs = false) :
    ∀ i, labelAhead (cs.drop i) = false := by
  induction cs with
  | nil => intro i; simp [labelAhead_nil]
  | cons c rest ih =>
    intro i
    obtain ⟨hla, hrest⟩ := hasLabel_cons c rest h
    cases i with
    | zero => simpa using hla
    | succ j => simpa using ih hrest j

theorem hasLabel_suffix (u r : List Char) (h : hasLabel (u ++ r) = false) :
    hasLabel r = false := by
  apply hasLabel_eq_false_of
  intro i
  have := hasLabel_drop (u ++ r) h (u.length + i)
  rwa [← List.drop_drop, List.drop_left] at this

theorem forall₂_hostLit :
    List.Forall₂ (fun c p => ciChar c p = true) ['H', 'o', 's', 't'] hostPat := by
  refine .cons (by decide) (.cons (by decide) (.cons (by decide)
    (.cons (by decide) .nil)))

theorem matchLabelColon_hostLit (t : List Char) :
    matchLabelColon ('H' :: 'o' :: 's' :: 't' :: ':' :: t)
      = some (['H', 'o', 's', 't'], t) := by
  have h1 : startsWithCI hostPat (['H', 'o', 's', 't'] ++ ':' :: t)
      = some (['H', 'o', 's', 't'], ':' :: t) :=
    startsWithCI_of_forall _ _ _ forall₂_hostLit
  unfold matchLabelColon
  rw [show ('H' :: 'o' :: 's' :: 't' :: ':' :: t)
    = ['H', 'o', 's', 't'] ++ ':' :: t from rfl, h1]
  simp [matchColon]

theorem scan_single_label (t : List Char) (hno : hasLabel t = false)
    (hne : pyStrip t ≠ []) (f p : Nat) (hf : 1 ≤ f) :
    ∃ body, scanPosF f p ('H' :: 'o' :: 's' :: 't' :: ':' :: t)
        = [(p, ['H', 'o', 's', 't'], body)] ∧ pyStrip body = pyStrip t := by
  have hr : stripLeading t ≠ [] := stripLeading_ne_nil_of_pyStrip t hne
  cases hsl : stripLeading t with
  | nil => exact absurd hsl hr
  | cons d ds =>
    have hd : isSpace d = false := by
      have h2 := List.head?_dropWhile_not isSpace t
      rw [show t.dropWhile isSpace = d :: ds from hsl] at h2
      simpa using h2
    have hnor : hasLabel (d :: ds) = false := by
      obtain ⟨u, hu, -⟩ := dropWhile_decomp isSpace t
      rw [show t.dropWhile isSpace = d :: ds from hsl] at hu
      exact hasLabel_suffix u _ (hu ▸ hno)
    have hm : matchAt ('H' :: 'o' :: 's' :: 't' :: ':' :: t)
        = some (['H', 'o', 's', 't'], (takeBody (d :: ds)).1, (takeBody (d :: ds)).2) := by
      unfold matchAt
      rw [matchLabelColon_hostLit]
      have : t.dropWhile isSpace = d :: ds := hsl
      simp only [this]
    obtain ⟨f', rfl⟩ : ∃ k, f = k + 1 := ⟨f - 1, by omega⟩
    rcases takeBody_nolabel (d :: ds) (by simp) hnor with htb | ⟨b, hb, hbeq, htb⟩
    · refine ⟨d :: ds, ?_, ?_⟩
      · rw [show scanPosF (f' + 1) p ('H' :: 'o' :: 's' :: 't' :: ':' :: t)
          = (p, ['H', 'o', 's', 't'], (takeBody (d :: ds)).1)
            :: scanPosF f' (p + (('H' :: 'o' :: 's' :: 't' :: ':' :: t).length
              - (takeBody (d :: ds)).2.length)) (takeBody (d :: ds)).2 from by
            simp only [scanPosF, hm]]
        rw [htb]
        rw [scanPosF_nil]
      · have h1 : pyStrip t = stripTrailing (d :: ds) := by
          show stripTrailing (stripLeading t) = _
          rw [hsl]
        have h2 : pyStrip (d :: ds) = stripTrailing (d :: ds) :=
          pyStrip_of_head_not_space _ d rfl hd
        rw [h1, h2]
    · refine ⟨b, ?_, ?_⟩
      · rw [show scanPosF (f' + 1) p ('H' :: 'o' :: 's' :: 't' :: ':' :: t)
          = (p, ['H', 'o', 's', 't'], (takeBody (d :: ds)).1)
            :: scanPosF f' (p + (('H' :: 'o' :: 's' :: 't' :: ':' :: t).length
              - (takeBody (d :: ds)).2.length)) (takeBody (d :: ds)).2 from by
            simp only [scanPosF, hm]]
        rw [htb]
        rw [scanPosF_nolabel f' _ ['\n'] (by decide)]
      · have hdb : ∃ bs, b = d :: bs := by
          cases b with
          | nil => exact absurd rfl hb
          | cons x xs =>
            have hx : d = x := by
              have := congrArg List.head? hbeq
              simpa using this
            exact ⟨xs, by rw [hx]⟩
        obtain ⟨bs, rfl⟩ := hdb
        have h1 : pyStrip t = stripTrailing (d :: ds) := by
          show stripTrailing (stripLeading t) = _
          rw [hsl]
        have h2 : pyStrip (d :: bs) = stripTrailing (d :: bs) :=
          pyStrip_of_head_not_space _ d rfl hd
        rw [h1, h2, hbeq]
        rw [stripTrailing_append_space _ '\n' (by decide)]

theorem parse_eq_filterMap_proj (s : String) :
    parse_script s = ((scan s.toList).map (fun t => t.2)).filterMap
      (fun pr => if (pyStrip pr.2).isEmpty then none
        else some (String.mk (pyCapitalize pr.1), String.mk (pyStrip pr.2))) := by
  unfold parse_script
  rw [List.filterMap_map]
  rfl

theorem parse_nolabel (s : String) (h : hasLabel s.toList = false) :
    parse_script s = [] := by
  unfold parse_script
  rw [show scan s.toList = [] from scanPosF_nolabel _ _ _ h]
  rfl

theorem parse_single_label (junk t : List Char)
    (hjunk : hasLabelIn junk.length
      (junk ++ 'H' :: 'o' :: 's' :: 't' :: ':' :: t) = false)
    (ht : hasLabel t = false) (hne : pyStrip t ≠ []) :
    parse_script (String.mk (junk ++ 'H' :: 'o' :: 's' :: 't' :: ':' :: t))
      = [("Host", String.mk (pyStrip t))] := by
  have htl : (String.mk (junk ++ 'H' :: 'o' :: 's' :: 't' :: ':' :: t)).toList
      = junk ++ 'H' :: 'o' :: 's' :: 't' :: ':' :: t := rfl
  rw [parse_eq_filterMap_proj, htl]
  have hskip := scanPosF_skip junk.length
    (junk ++ 'H' :: 'o' :: 's' :: 't' :: ':' :: t) 0
    (junk ++ 'H' :: 'o' :: 's' :: 't' :: ':' :: t).length
    ('H' :: 'o' :: 's' :: 't' :: ':' :: t).length hjunk (by simp)
    (Nat.le_refl _) (by rw [List.drop_left])
  rw [List.drop_left] at hskip
  obtain ⟨body, hscan, hbody⟩ := scan_single_label t ht hne
    ('H' :: 'o' :: 's' :: 't' :: ':' :: t).length 0 (by simp)
  rw [show scan (junk ++ 'H' :: 'o' :: 's' :: 't' :: ':' :: t)
    = scanPosF (junk ++ 'H' :: 'o' :: 's' :: 't' :: ':' :: t).length 0
      (junk ++ 'H' :: 'o' :: 's' :: 't' :: ':' :: t) from rfl]
  rw [hskip, hscan]
  have hemp : (pyStrip t).isEmpty = false := by
    cases hx : pyStrip t with
    | nil => exact absurd hx hne
    | cons a as => rfl
  simp only [List.map_cons, List.map_nil, List.filterMap_cons, List.filterMap_nil,
    hbody, hemp, Bool.false_eq_true, if_false]
  rw [show String.mk (pyCapitalize ['H', 'o', 's', 't']) = "Host" from by decide]

/-! ## Facts about the per-turn loop and the pipeline -/

theorem runLoop_ok (env : Env) (d : Nat → Nat) :
    ∀ ts k, (∀ j, j < ts.length → env.ttsOk (k + j) = true
        ∧ env.decode (k + j) = .ok (d (k + j))) →
      runLoop env k ts = { calls := ts.map planCall
                           segs := planSegs d k ts.length
                           files := (List.range ts.length).map (k + ·)
                           err := none } := by
  intro ts
  induction ts with
  | nil => intro k _; rfl
  | cons hd tl ih =>
    intro k hall
    obtain ⟨sp, tx⟩ := hd
    obtain ⟨htts, hdec⟩ := hall 0 (by simp)
    rw [Nat.add_zero] at htts hdec
    show runLoop env k ((sp, tx) :: tl) = _
    rw [show runLoop env k ((sp, tx) :: tl)
      = (if env.ttsOk k then
          match env.decode k with
          | .ok dur =>
            { calls := generate_single_audio tx (resolveVoice sp)
                :: (runLoop env (k + 1) tl).calls
              segs := [Atom.speech k dur] :: [Atom.silence 500]
                :: (runLoop env (k + 1) tl).segs
              files := k :: (runLoop env (k + 1) tl).files
              err := (runLoop env (k + 1) tl).err }
          | .error e =>
            { calls := [generate_single_audio tx (resolveVoice sp)]
              segs := []
              files := [k]
              err := some (.audioDecode (decodeErrMsg ++ e)) }
        else
          { calls := [generate_single_audio tx (resolveVoice sp)]
            segs := []
            files := []
            err := some .ttsFailure }) from rfl]
    rw [htts, hdec, if_pos rfl]
    rw [ih (k + 1) (fun j hj => by
      have := hall (j + 1) (by simp; omega)
      rwa [show k + (j + 1) = k + 1 + j from by omega] at this)]
    simp only [List.map_cons, List.length_cons, planSegs, planCall,
      List.range_succ_eq_map, List.map_map, LoopOut.mk.injEq, Nat.add_zero,
      List.cons.injEq, true_and, and_true]
    congr 1
    funext j
    simp only [Function.comp_apply, Nat.succ_eq_add_one]
    omega

theorem foldl_append_planSegs (d : Nat → Nat) :
    ∀ n k (s : List Atom),
      (planSegs d k n).foldl (· ++ ·) s = s ++ planAtoms d k n := by
  intro n
  induction n with
  | zero => intro k s; simp [planSegs, planAtoms]
  | succ n ih =>
    intro k s
    show (([Atom.speech k (d k)] :: [Atom.silence 500] :: planSegs d (k + 1) n).foldl
      (· ++ ·) s) = _
    rw [List.foldl_cons, List.foldl_cons, ih (k + 1)]
    simp [planAtoms]

theorem assembleExport_planSegs (d : Nat → Nat) (k n : Nat) (out : String) :
    assembleExport (planSegs d k (n + 1)) out
      = Except.ok (out, some (planAtoms d k (n + 1))) := by
  show assembleExport ([Atom.speech k (d k)] :: [Atom.silence 500]
    :: planSegs d (k + 1) n) out = Except.ok (out, some (planAtoms d k (n + 1)))
  rw [show assembleExport ([Atom.speech k (d k)] :: [Atom.silence 500]
      :: planSegs d (k + 1) n) out
    = Except.ok (out, some (([Atom.silence 500] :: planSegs d (k + 1) n).foldl
        (· ++ ·) [Atom.speech k (d k)])) from rfl]
  rw [List.foldl_cons, foldl_append_planSegs]
  rfl

theorem duration_planAtoms (d : Nat → Nat) :
    ∀ n k, duration (planAtoms d k n)
      = (∑ i ∈ Finset.range n, d (k + i)) + 500 * n := by
  intro n
  induction n with
  | zero => intro k; simp [planAtoms, duration]
  | succ n ih =>
    intro k
    show duration (Atom.speech k (d k) :: Atom.silence 500 :: planAtoms d (k + 1) n) = _
    rw [show duration (Atom.speech k (d k) :: Atom.silence 500 :: planAtoms d (k + 1) n)
      = d k + (500 + duration (planAtoms d (k + 1) n)) from by
        simp [duration, Atom.dur]]
    rw [ih (k + 1)]
    rw [Finset.sum_range_succ']
    have hc : ∑ i ∈ Finset.range n, d (k + 1 + i) = ∑ i ∈ Finset.range n, d (k + (i + 1)) :=
      Finset.sum_congr rfl (fun i _ => by rw [show k + 1 + i = k + (i + 1) from by omega])
    rw [hc]
    simp only [Nat.add_zero]
    omega

theorem runLoop_cons (env : Env) (k : Nat) (sp tx : String)
    (tl : List (String × String)) :
    runLoop env k ((sp, tx) :: tl)
      = if env.ttsOk k then
          match env.decode k with
          | .ok dur =>
            { calls := generate_single_audio tx (resolveVoice sp)
                :: (runLoop env (k + 1) tl).calls
              segs := [Atom.speech k dur] :: [Atom.silence 500]
                :: (runLoop env (k + 1) tl).segs
              files := k :: (runLoop env (k + 1) tl).files
              err := (runLoop env (k + 1) tl).err }
          | .error e =>
            { calls := [generate_single_audio tx (resolveVoice sp)]
              segs := []
              files := [k]
              err := some (.audioDecode (decodeErrMsg ++ e)) }
        else
          { calls := [generate_single_audio tx (resolveVoice sp)]
            segs := []
            files := []
            err := some .ttsFailure } := rfl

theorem runLoop_fail (env : Env) (i : Nat) (e : String) :
    ∀ ts k, k ≤ i → i < k + ts.length →
      (∀ j, k ≤ j → j ≤ i → env.ttsOk j = true) →
      (∀ j, k ≤ j → j < i → ∃ dj, env.decode j = .ok dj) →
      env.decode i = .error e →
      (runLoop env k ts).err = some (.audioDecode (decodeErrMsg ++ e))
        ∧ (runLoop env k ts).calls.length = i + 1 - k := by
  intro ts
  induction ts with
  | nil =>
    intro k _ h2 _ _ _
    simp at h2
    omega
  | cons hd tl ih =>
    intro k h1 h2 htts hdec hfail
    obtain ⟨sp, tx⟩ := hd
    rw [runLoop_cons, htts k (Nat.le_refl k) h1, if_pos rfl]
    by_cases hk : k = i
    · subst hk
      rw [hfail]
      exact ⟨rfl, by simp⟩
    · have hki : k < i := Nat.lt_of_le_of_ne h1 hk
      obtain ⟨dk, hdk⟩ := hdec k (Nat.le_refl k) hki
      rw [hdk]
      obtain ⟨herr, hlen⟩ := ih (k + 1) (by omega) (by simp at h2 ⊢; omega)
        (fun j hj1 hj2 => htts j (by omega) hj2)
        (fun j hj1 hj2 => hdec j (by omega) hj2) hfail
      refine ⟨by simpa using herr, ?_⟩
      show (generate_single_audio tx (resolveVoice sp)
        :: (runLoop env (k + 1) tl).calls).length = i + 1 - k
      rw [List.length_cons, hlen]
      omega

theorem runLoop_calls_take (env : Env) :
    ∀ ts k, ∃ n, n ≤ ts.length
      ∧ (runLoop env k ts).calls = (ts.take n).map planCall
      ∧ ((runLoop env k ts).err = none → n = ts.length) := by
  intro ts
  induction ts with
  | nil => intro k; exact ⟨0, by simp, rfl, fun _ => rfl⟩
  | cons hd tl ih =>
    intro k
    obtain ⟨sp, tx⟩ := hd
    rw [runLoop_cons]
    cases htts : env.ttsOk k with
    | false =>
      refine ⟨1, by simp, by simp [planCall], ?_⟩
      intro hnone
      simp at hnone
    | true =>
      cases hdec : env.decode k with
      | error e =>
        refine ⟨1, by simp, by simp [planCall], ?_⟩
        intro hnone
        simp at hnone
      | ok dk =>
        obtain ⟨n, hn, hcalls, hfull⟩ := ih (k + 1)
        refine ⟨n + 1, by simp; omega, ?_, ?_⟩
        · show generate_single_audio tx (resolveVoice sp)
            :: (runLoop env (k + 1) tl).calls = _
          rw [hcalls]
          rfl
        · intro hnone
          have : (runLoop env (k + 1) tl).err = none := by simpa using hnone
          rw [List.length_cons, hfull this]

theorem runLoop_congr (env env' : Env) (h1 : env.ttsOk = env'.ttsOk)
    (h2 : env.decode = env'.decode) :
    ∀ ts k, runLoop env k ts = runLoop env' k ts := by
  intro ts
  induction ts with
  | nil => intro k; rfl
  | cons hd tl ih =>
    intro k
    obtain ⟨sp, tx⟩ := hd
    rw [runLoop_cons, runLoop_cons, h1, h2, ih (k + 1)]

theorem generate_podcast_audio_eq (env : Env) (script out : String) :
    generate_podcast_audio env script out
      = if (parse_script script).isEmpty then
          { outcome := .error (.malformedScript malformedMsg)
            calls := []
            exported := none
            tempDirCreated := false
            tempFilesLeft := []
            tempDirLeft := false }
        else
          match (runLoop env 0 (parse_script script)).err with
          | some e =>
            { outcome := .error e
              calls := (runLoop env 0 (parse_script script)).calls
              exported := none
              tempDirCreated := true
              tempFilesLeft := (runLoop env 0 (parse_script script)).files.filter
                (fun i => !env.removeOk i)
              tempDirLeft := !(((runLoop env 0 (parse_script script)).files.filter
                (fun i => !env.removeOk i)).isEmpty && env.rmdirOk) }
          | none =>
            match assembleExport (runLoop env 0 (parse_script script)).segs out with
            | .ok (path, art) =>
              { outcome := .ok path
                calls := (runLoop env 0 (parse_script script)).calls
                exported := art
                tempDirCreated := true
                tempFilesLeft := (runLoop env 0 (parse_script script)).files.filter
                  (fun i => !env.removeOk i)
                tempDirLeft := !(((runLoop env 0 (parse_script script)).files.filter
                  (fun i => !env.removeOk i)).isEmpty && env.rmdirOk) }
            | .error e =>
              { outcome := .error e
                calls := (runLoop env 0 (parse_script script)).calls
                exported := none
                tempDirCreated := true
                tempFilesLeft := (runLoop env 0 (parse_script script)).files.filter
                  (fun i => !env.removeOk i)
                tempDirLeft := !(((runLoop env 0 (parse_script script)).files.filter
                  (fun i => !env.removeOk i)).isEmpty && env.rmdirOk) } := rfl

theorem run_calls (env : Env) (script out : String)
    (h : ¬(parse_script script).isEmpty = true) :
    (generate_podcast_audio env script out).calls
      = (runLoop env 0 (parse_script script)).calls := by
  rw [generate_podcast_audio_eq, if_neg h]
  cases herr : (runLoop env 0 (parse_script script)).err with
  | some e => rfl
  | none =>
    cases hsegs : (runLoop env 0 (parse_script script)).segs with
    | nil => rfl
    | cons s rest => rfl

theorem isPrefixOf_append (l1 l2 l3 : List Char) (h : l1.isPrefixOf l2 = true) :
    l1.isPrefixOf (l2 ++ l3) = true := by
  induction l1 generalizing l2 with
  | nil => simp [List.isPrefixOf]
  | cons a as ih =>
    cases l2 with
    | nil => simp [List.isPrefixOf] at h
    | cons b bs =>
      simp only [List.isPrefixOf, List.cons_append, Bool.and_eq_true] at h ⊢
      exact ⟨h.1, ih bs h.2⟩

theorem occursIn_append (pat l l' : List Char) (h : occursIn pat l = true) :
    occursIn pat (l ++ l') = true := by
  induction l with
  | nil =>
    simp only [occursIn, List.isEmpty_iff] at h
    subst h
    cases l' with
    | nil => rfl
    | cons c cs => simp [occursIn, List.isPrefixOf]
  | cons c cs ih =>
    simp only [occursIn, Bool.or_eq_true] at h ⊢
    rcases h with h | h
    · exact Or.inl (isPrefixOf_append _ _ _ h)
    · exact Or.inr (ih h)

/-! ## Claim theorems -/

/-- C1 counterexample: CPython's IGNORECASE also matches U+017F LATIN SMALL
LETTER LONG S `ſ` against the `s` of the label patterns, so a parsed speaker
is not always normalized to exactly `"Host"` or `"Guest"`: the script
`"hoſt: hi"` parses to a turn whose speaker is `"Hoſt"`. -/
theorem C1_counterexample :
    parse_script "hoſt: hi" = [("Hoſt", "hi")]
      ∧ ("Hoſt" : String) ≠ "Host" ∧ ("Hoſt" : String) ≠ "Guest" := by decide

/-- C1 amended: for every script, `parse_script` returns turns whose speaker
label is the capitalized form of a case-insensitive label match — one of
`"Host"`, `"Hoſt"`, `"Guest"`, `"Gueſt"` (the long-s variants arise from
CPython's s ↔ U+017F case-equivalence) — and whose text is non-empty and
trimmed of leading/trailing whitespace (empty-after-trim turns are dropped,
as the trailing-empty-turn example shows); matches are found at strictly
increasing source positions, so turns come in original left-to-right order;
and the three-line example parses to exactly the three expected turns. -/
theorem C1_parse_normalization_and_order :
    (∀ script sp tx, (sp, tx) ∈ parse_script script →
        (sp = "Host" ∨ sp = "Hoſt" ∨ sp = "Guest" ∨ sp = "Gueſt")
          ∧ tx ≠ "" ∧ pyStrip tx.toList = tx.toList)
    ∧ (∀ script : String, ((scan script.toList).map (fun t => t.1)).Pairwise (· < ·))
    ∧ parse_script "Host: Hi\nGuest: Hello\nHost: Bye"
        = [("Host", "Hi"), ("Guest", "Hello"), ("Host", "Bye")]
    ∧ parse_script "Host: Hi\nGuest: " = [("Host", "Hi")] := by
  refine ⟨?_, ?_, by decide, by decide⟩
  · intro script sp tx h
    exact ⟨parse_speaker script sp tx h, parse_text_trimmed script sp tx h⟩
  · intro script
    exact scanPosF_pairwise _ _ _

/-- Witness for C1 at a concrete turn of a concrete script. -/
theorem C1_witness :
    ("Host", "Hi") ∈ parse_script "Host: Hi"
      ∧ ((("Host" : String) = "Host" ∨ ("Host" : String) = "Hoſt"
          ∨ ("Host" : String) = "Guest" ∨ ("Host" : String) = "Gueſt")
        ∧ ("Hi" : String) ≠ ""
        ∧ pyStrip (String.toList "Hi") = String.toList "Hi") :=
  ⟨by decide, C1_parse_normalization_and_order.1 "Host: Hi" "Host" "Hi" (by decide)⟩

/-- C2: a script in which the parser recognizes no labelled turn makes
`generate_podcast_audio` raise the malformed-script `ValueError` (the spec's
`MalformedScriptError`) before any TTS call is attempted; `""` and
`"no labels here"` are such scripts. -/
theorem C2_no_turns_error (env : Env) (script out : String)
    (h : parse_script script = []) :
    (generate_podcast_audio env script out).outcome
        = .error (.malformedScript malformedMsg)
      ∧ (generate_podcast_audio env script out).calls = []
      ∧ parse_script "" = [] ∧ parse_script "no labels here" = [] := by
  rw [generate_podcast_audio_eq, h]
  exact ⟨rfl, rfl, by decide, by decide⟩

/-- Witness for C2 at the concrete script `"no labels here"`. -/
theorem C2_witness :
    parse_script "no labels here" = []
      ∧ ((generate_podcast_audio envAllOk "no labels here" "p.mp3").outcome
          = .error (.malformedScript malformedMsg)
        ∧ (generate_podcast_audio envAllOk "no labels here" "p.mp3").calls = []
        ∧ parse_script "" = [] ∧ parse_script "no labels here" = []) :=
  ⟨by decide, C2_no_turns_error envAllOk "no labels here" "p.mp3" (by decide)⟩

/-- C3: when every turn synthesizes and decodes successfully, the exported
artifact is exactly the decoded segments in original turn order, each followed
by a 500 ms silence (including after the final turn), and its duration is the
sum of the segment durations plus 500 ms times the number of turns. -/
theorem C3_assembly_silence_duration (env : Env) (script out : String)
    (d : Nat → Nat) (hne : parse_script script ≠ [])
    (htts : ∀ i, env.ttsOk i = true)
    (hdec : ∀ i, env.decode i = .ok (d i)) :
    (generate_podcast_audio env script out).exported
        = some (planAtoms d 0 (parse_script script).length)
      ∧ duration (planAtoms d 0 (parse_script script).length)
        = (∑ i ∈ Finset.range (parse_script script).length, d i)
            + 500 * (parse_script script).length := by
  have hrl := runLoop_ok env d (parse_script script) 0
    (fun j _ => ⟨htts (0 + j), hdec (0 + j)⟩)
  have hp : ¬(parse_script script).isEmpty = true := by
    cases hx : parse_script script with
    | nil => exact absurd hx hne
    | cons a as => simp
  constructor
  · rw [generate_podcast_audio_eq, if_neg hp, hrl]
    obtain ⟨m, hm⟩ : ∃ m, (parse_script script).length = m + 1 := by
      cases hx : parse_script script with
      | nil => exact absurd hx hne
      | cons a as => exact ⟨as.length, by simp⟩
    rw [hm, assembleExport_planSegs]
  · rw [duration_planAtoms]
    congr 1
    exact Finset.sum_congr rfl (fun i _ => by rw [Nat.zero_add])

/-- Witness for C3: two one-second turns assemble to 1000 + 500 + 1000 + 500
milliseconds. -/
theorem C3_witness :
    parse_script "Host: Hi\nGuest: Yo" ≠ []
      ∧ ((generate_podcast_audio envAllOk "Host: Hi\nGuest: Yo" "p.mp3").exported
          = some (planAtoms (fun _ => 1000) 0
              (parse_script "Host: Hi\nGuest: Yo").length)
        ∧ duration (planAtoms (fun _ => 1000) 0
              (parse_script "Host: Hi\nGuest: Yo").length)
          = (∑ i ∈ Finset.range (parse_script "Host: Hi\nGuest: Yo").length,
              (fun _ => 1000) i)
              + 500 * (parse_script "Host: Hi\nGuest: Yo").length) :=
  ⟨by decide, C3_assembly_silence_duration envAllOk "Host: Hi\nGuest: Yo" "p.mp3"
    (fun _ => 1000) (by decide) (fun i => rfl) (fun i => rfl)⟩

/-- C4: on every exit path (parse failure creates no temp directory; success,
TTS failure and decode failure all run the `finally` block), if the individual
removal operations succeed then no temp file and no temp directory remain; and
removal failures are swallowed: the run's outcome and the exported artifact do
not depend on whether removals succeed. -/
theorem C4_cleanup (env : Env) (script out : String)
    (hrm : ∀ i, env.removeOk i = true) (hrd : env.rmdirOk = true) :
    (generate_podcast_audio env script out).tempFilesLeft = []
      ∧ (generate_podcast_audio env script out).tempDirLeft = false
      ∧ ∀ env' : Env, env'.ttsOk = env.ttsOk → env'.decode = env.decode →
          (generate_podcast_audio env' script out).outcome
              = (generate_podcast_audio env script out).outcome
            ∧ (generate_podcast_audio env' script out).exported
              = (generate_podcast_audio env script out).exported := by
  have hfilter : ∀ l : List Nat, l.filter (fun i => !env.removeOk i) = [] := by
    intro l
    rw [List.filter_eq_nil_iff]
    intro a _
    rw [hrm a]
    simp
  by_cases hp : (parse_script script).isEmpty = true
  · rw [generate_podcast_audio_eq, if_pos hp]
    refine ⟨rfl, rfl, ?_⟩
    intro env' h1 h2
    rw [generate_podcast_audio_eq, if_pos hp]
    exact ⟨rfl, rfl⟩
  · have hcongr : ∀ env' : Env, env'.ttsOk = env.ttsOk → env'.decode = env.decode →
        runLoop env' 0 (parse_script script) = runLoop env 0 (parse_script script) :=
      fun env' h1 h2 => runLoop_congr env' env h1 h2 (parse_script script) 0
    rw [generate_podcast_audio_eq, if_neg hp]
    cases herr : (runLoop env 0 (parse_script script)).err with
    | some e =>
      refine ⟨hfilter _, ?_, ?_⟩
      · show (!(((runLoop env 0 (parse_script script)).files.filter
          (fun i => !env.removeOk i)).isEmpty && env.rmdirOk)) = false
        rw [hfilter, hrd]
        rfl
      · intro env' h1 h2
        rw [generate_podcast_audio_eq, if_neg hp, hcongr env' h1 h2, herr]
        exact ⟨rfl, rfl⟩
    | none =>
      cases hsegs : (runLoop env 0 (parse_script script)).segs with
      | nil =>
        refine ⟨hfilter _, ?_, ?_⟩
        · show (!(((runLoop env 0 (parse_script script)).files.filter
            (fun i => !env.removeOk i)).isEmpty && env.rmdirOk)) = false
          rw [hfilter, hrd]
          rfl
        · intro env' h1 h2
          rw [generate_podcast_audio_eq, if_neg hp, hcongr env' h1 h2, herr, hsegs]
          exact ⟨rfl, rfl⟩
      | cons s rest =>
        refine ⟨hfilter _, ?_, ?_⟩
        · show (!(((runLoop env 0 (parse_script script)).files.filter
            (fun i => !env.removeOk i)).isEmpty && env.rmdirOk)) = false
          rw [hfilter, hrd]
          rfl
        · intro env' h1 h2
          rw [generate_podcast_audio_eq, if_neg hp, hcongr env' h1 h2, herr, hsegs]
          exact ⟨rfl, rfl⟩

/-- Witness for C4 at an all-succeeding environment and a concrete script. -/
theorem C4_witness :
    (∀ i, envAllOk.removeOk i = true) ∧ envAllOk.rmdirOk = true
      ∧ ((generate_podcast_audio envAllOk "Host: Hi" "p.mp3").tempFilesLeft = []
        ∧ (generate_podcast_audio envAllOk "Host: Hi" "p.mp3").tempDirLeft = false
        ∧ ∀ env' : Env, env'.ttsOk = envAllOk.ttsOk → env'.decode = envAllOk.decode →
            (generate_podcast_audio env' "Host: Hi" "p.mp3").outcome
                = (generate_podcast_audio envAllOk "Host: Hi" "p.mp3").outcome
              ∧ (generate_podcast_audio env' "Host: Hi" "p.mp3").exported
                = (generate_podcast_audio envAllOk "Host: Hi" "p.mp3").exported) :=
  ⟨fun i => rfl, rfl, C4_cleanup envAllOk "Host: Hi" "p.mp3" (fun i => rfl) rfl⟩

/-- C5: if decoding the synthesized audio of turn `i` raises (all earlier
turns having decoded fine), the run fails with the decode `RuntimeError`
carrying the static remediation text plus the underlying exception text,
exactly the turns up to and including `i` were attempted (the remaining turns
are aborted), nothing is exported to the destination path, and the message
contains the `brew install ffmpeg` remediation instruction. -/
theorem C5_decode_failure (env : Env) (script out : String) (i : Nat) (e : String)
    (hi : i < (parse_script script).length)
    (htts : ∀ j, j ≤ i → env.ttsOk j = true)
    (hdec : ∀ j, j < i → ∃ dj, env.decode j = .ok dj)
    (hfail : env.decode i = .error e) :
    (generate_podcast_audio env script out).outcome
        = .error (.audioDecode (decodeErrMsg ++ e))
      ∧ (generate_podcast_audio env script out).exported = none
      ∧ (generate_podcast_audio env script out).calls.length = i + 1
      ∧ occursIn "brew install ffmpeg".toList (decodeErrMsg ++ e).toList = true := by
  obtain ⟨herr, hlen⟩ := runLoop_fail env i e (parse_script script) 0
    (Nat.zero_le i) (by omega)
    (fun j _ hj2 => htts j hj2) (fun j _ hj2 => hdec j hj2) hfail
  have hp : ¬(parse_script script).isEmpty = true := by
    cases hx : parse_script script with
    | nil => rw [hx] at hi; simp at hi
    | cons a as => simp
  refine ⟨?_, ?_, ?_, ?_⟩
  · rw [generate_podcast_audio_eq, if_neg hp, herr]
  · rw [generate_podcast_audio_eq, if_neg hp, herr]
  · rw [generate_podcast_audio_eq, if_neg hp, herr]
    show (runLoop env 0 (parse_script script)).calls.length = i + 1
    rw [hlen]
    omega
  · rw [show (decodeErrMsg ++ e).toList = decodeErrMsg.toList ++ e.toList from
      String.data_append decodeErrMsg e]
    exact occursIn_append _ _ _ (by decide)

/-- Witness for C5: decoding the second turn fails. -/
theorem C5_witness :
    1 < (parse_script "Host: Hi\nGuest: Yo").length
      ∧ ((generate_podcast_audio (envDecodeFail 1) "Host: Hi\nGuest: Yo" "p.mp3").outcome
          = .error (.audioDecode (decodeErrMsg ++ "codec"))
        ∧ (generate_podcast_audio (envDecodeFail 1) "Host: Hi\nGuest: Yo" "p.mp3").exported
          = none
        ∧ (generate_podcast_audio (envDecodeFail 1) "Host: Hi\nGuest: Yo" "p.mp3").calls.length
          = 1 + 1
        ∧ occursIn "brew install ffmpeg".toList (decodeErrMsg ++ "codec").toList = true) :=
  ⟨by decide, C5_decode_failure (envDecodeFail 1) "Host: Hi\nGuest: Yo" "p.mp3" 1 "codec"
    (by decide) (fun j _ => rfl) (fun j hj => ⟨1000, by simp [envDecodeFail]; omega⟩)
    (by simp [envDecodeFail])⟩

/-- C6 counterexample: the assembly block given an empty segment sequence does
not fail — it returns normally with the destination path and exports nothing
(`none`); there is no `EmptyAssemblyError` anywhere in the code, contradicting
the claim that `assemble([])` raises one. -/
theorem C6_counterexample :
    assembleExport [] "podcast.mp3" = Except.ok ("podcast.mp3", none) := rfl

/-- C6 amended: given an empty sequence the assembly block skips the export and
returns the destination path without raising; in the pipeline this case is
unreachable because a script with zero parsed turns already raised the
malformed-script error before assembly. -/
theorem C6_empty_assembly_amended :
    (∀ out, assembleExport ([] : List (List Atom)) out = Except.ok (out, none))
    ∧ (∀ (env : Env) (script out : String), parse_script script = [] →
        (generate_podcast_audio env script out).outcome
          = .error (.malformedScript malformedMsg)) := by
  refine ⟨fun out => rfl, ?_⟩
  intro env script out h
  rw [generate_podcast_audio_eq, h]
  rfl

/-- Witness for C6 amended at concrete inputs. -/
theorem C6_witness :
    parse_script "" = []
      ∧ assembleExport ([] : List (List Atom)) "out.mp3" = Except.ok ("out.mp3", none)
      ∧ (generate_podcast_audio envAllOk "" "out.mp3").outcome
          = .error (.malformedScript malformedMsg) :=
  ⟨by decide, C6_empty_assembly_amended.1 "out.mp3",
    C6_empty_assembly_amended.2 envAllOk "" "out.mp3" (by decide)⟩

/-- C7: text before the first recognized label is discarded and unlabeled
trailing text after the last label is attached to the last turn: for any
label-free `junk` and any label-free tail `t` with non-whitespace content,
`junk ++ "Host:" ++ t` parses to the single turn `(Host, strip t)` — the junk
gone, the whole multi-line tail attached; the concrete multi-turn script shows
the same at both ends. -/
theorem C7_edge_policy :
    (∀ junk t : List Char,
      hasLabelIn junk.length (junk ++ 'H' :: 'o' :: 's' :: 't' :: ':' :: t) = false →
      hasLabel t = false → pyStrip t ≠ [] →
      parse_script (String.mk (junk ++ 'H' :: 'o' :: 's' :: 't' :: ':' :: t))
        = [("Host", String.mk (pyStrip t))])
    ∧ parse_script "leading junk Host: Hi\nGuest: Hello\ntrailing text\nis attached"
      = [("Host", "Hi"), ("Guest", "Hello\ntrailing text\nis attached")] := by
  exact ⟨parse_single_label, by decide⟩

/-- Witness for C7 at concrete junk and trailing text. -/
theorem C7_witness :
    hasLabelIn ("ignored ".toList).length
        ("ignored ".toList ++ 'H' :: 'o' :: 's' :: 't' :: ':' :: " hi\nmore".toList)
        = false
      ∧ hasLabel (" hi\nmore".toList) = false
      ∧ pyStrip (" hi\nmore".toList) ≠ []
      ∧ parse_script (String.mk ("ignored ".toList
          ++ 'H' :: 'o' :: 's' :: 't' :: ':' :: " hi\nmore".toList))
        = [("Host", String.mk (pyStrip (" hi\nmore".toList)))] :=
  ⟨by decide, by decide, by decide,
    C7_edge_policy.1 "ignored ".toList " hi\nmore".toList
      (by decide) (by decide) (by decide)⟩

/-- C8 counterexample: the parser can emit the speaker `"Hoſt"` (from a
`hoſt:` label, via CPython's s ↔ U+017F case-equivalence), which is not
`"Host"`, so line 235's conditional sends this Host-intended turn to the
Guest voice `ko-KR-SunHiNeural` — not a voice statically mapped to it. -/
theorem C8_counterexample :
    (generate_podcast_audio envAllOk "hoſt: hi" "p.mp3").calls
        = [{ text := "hi", voice := "ko-KR-SunHiNeural", rate := "+20%" }]
      ∧ ("Hoſt", "hi") ∈ parse_script "hoſt: hi"
      ∧ ("Hoſt" : String) ≠ "Host" ∧ ("Hoſt" : String) ≠ "Guest" := by decide

/-- C8 amended: every TTS call the pipeline makes uses the fixed `"+20%"`
rate; the calls made are exactly (a prefix of, and with no failures all of)
the parsed turns mapped through the voice resolution of line 235, which sends
the speaker `"Host"` to `ko-KR-InJoonNeural` and every other parser-emitted
speaker — `"Guest"`, but also the long-s variants `"Hoſt"`/`"Gueſt"` — to
`ko-KR-SunHiNeural`. -/
theorem C8_voice_and_rate (env : Env) (script out : String) :
    (∀ c ∈ (generate_podcast_audio env script out).calls, c.rate = "+20%")
    ∧ (∃ n, n ≤ (parse_script script).length
        ∧ (generate_podcast_audio env script out).calls
          = ((parse_script script).take n).map planCall)
    ∧ ((∀ i, env.ttsOk i = true) → (∀ i, ∃ di, env.decode i = .ok di) →
        (generate_podcast_audio env script out).calls
          = (parse_script script).map planCall)
    ∧ resolveVoice "Host" = "ko-KR-InJoonNeural"
    ∧ resolveVoice "Guest" = "ko-KR-SunHiNeural"
    ∧ resolveVoice "Hoſt" = "ko-KR-SunHiNeural"
    ∧ resolveVoice "Gueſt" = "ko-KR-SunHiNeural"
    ∧ (∀ sp tx, (sp, tx) ∈ parse_script script →
        sp = "Host" ∨ sp = "Hoſt" ∨ sp = "Guest" ∨ sp = "Gueſt") := by
  have hprefix : ∃ n, n ≤ (parse_script script).length
      ∧ (generate_podcast_audio env script out).calls
        = ((parse_script script).take n).map planCall := by
    by_cases hp : (parse_script script).isEmpty = true
    · refine ⟨0, Nat.zero_le _, ?_⟩
      rw [generate_podcast_audio_eq, if_pos hp]
      rfl
    · obtain ⟨n, hn, hcalls, -⟩ := runLoop_calls_take env (parse_script script) 0
      exact ⟨n, hn, by rw [run_calls env script out hp, hcalls]⟩
  refine ⟨?_, hprefix, ?_, rfl, rfl, by decide, by decide,
    fun sp tx h => parse_speaker script sp tx h⟩
  · intro c hc
    obtain ⟨n, -, hcalls⟩ := hprefix
    rw [hcalls] at hc
    obtain ⟨t, -, rfl⟩ := List.mem_map.mp hc
    rfl
  · intro htts hdec
    by_cases hp : (parse_script script).isEmpty = true
    · rw [generate_podcast_audio_eq, if_pos hp]
      rw [show parse_script script = [] from by
        cases hx : parse_script script with
        | nil => rfl
        | cons a as => rw [hx] at hp; simp at hp]
      rfl
    · rw [run_calls env script out hp]
      rw [runLoop_ok env (fun i => match env.decode i with
          | .ok x => x
          | .error _ => 0) (parse_script script) 0
        (fun j _ => ⟨htts (0 + j), by
          obtain ⟨dj, hdj⟩ := hdec (0 + j)
          simp only [hdj]⟩)]

/-- Witness for C8: with no failures, the calls are exactly the parsed turns
through the static voice mapping with the fixed rate. -/
theorem C8_witness :
    (∀ i, envAllOk.ttsOk i = true)
      ∧ (generate_podcast_audio envAllOk "Host: Hi\nGuest: Yo" "p.mp3").calls
        = (parse_script "Host: Hi\nGuest: Yo").map planCall :=
  ⟨fun i => rfl,
    (C8_voice_and_rate envAllOk "Host: Hi\nGuest: Yo" "p.mp3").2.2.1
      (fun i => rfl) (fun i => ⟨1000, rfl⟩)⟩

/-- C9 counterexample: there is no `UnknownSpeakerError` in the code — voice
resolution is `HOST_VOICE if speaker == "Host" else GUEST_VOICE`, a total
function, so a label other than the two recognized ones resolves to the Guest
voice instead of failing. -/
theorem C9_counterexample : resolveVoice "Narrator" = "ko-KR-SunHiNeural" := by
  decide

/-- C9 amended: a speaker label other than `"Host"` resolves to the Guest
voice rather than failing (no `UnknownSpeakerError` exists anywhere in the
code); and labels other than the two recognized ones can in fact reach
resolution: besides `"Host"` and `"Guest"` the parser can emit the long-s
variants `"Hoſt"`/`"Gueſt"` (via CPython's s ↔ U+017F case-equivalence),
which reach line 235 and resolve to the Guest voice. -/
theorem C9_unknown_speaker_amended :
    (∀ sp : String, sp ≠ "Host" → resolveVoice sp = GUEST_VOICE)
    ∧ (∀ script sp tx, (sp, tx) ∈ parse_script script →
        sp = "Host" ∨ sp = "Hoſt" ∨ sp = "Guest" ∨ sp = "Gueſt")
    ∧ ("Hoſt", "hi") ∈ parse_script "hoſt: hi"
    ∧ resolveVoice "Hoſt" = GUEST_VOICE := by
  refine ⟨?_, fun script sp tx h => parse_speaker script sp tx h, by decide, by decide⟩
  intro sp h
  unfold resolveVoice
  rw [if_neg h]

/-- Witness for C9 amended at the concrete label `"Narrator"`. -/
theorem C9_witness :
    ("Narrator" : String) ≠ "Host" ∧ resolveVoice "Narrator" = GUEST_VOICE :=
  ⟨by decide, C9_unknown_speaker_amended.1 "Narrator" (by decide)⟩

/-- C10 counterexample: a label occurrence directly after a previous label's
colon is consumed as that turn's text, so a returned turn's text can contain a
case-insensitive label occurrence: `"Host: Guest: hi"` parses to the single
turn `(Host, "Guest: hi")`, whose text contains `"Guest:"`. -/
theorem C10_counterexample :
    parse_script "Host: Guest: hi" = [("Host", "Guest: hi")]
      ∧ hasLabel (String.toList "Guest: hi") = true := by decide

/-- C10 amended: labels are recognized at any position, not only at line
starts (see the mid-line example), but a label whose occurrence begins before
at least one character of turn text has been consumed — i.e. one separated
from the previous label's colon only by whitespace — is swallowed into that
turn's text; what does hold is that a returned turn's text contains no
case-insensitive `Host:`/`Guest:` occurrence after its first character. -/
theorem C10_labels_anywhere_amended :
    (∀ script sp tx, (sp, tx) ∈ parse_script script →
        hasLabel tx.toList.tail = false)
    ∧ parse_script "intro Host: one mid Guest: two"
      = [("Host", "one mid"), ("Guest", "two")] := by
  exact ⟨fun script sp tx h => parse_text_no_inner_label script sp tx h, by decide⟩

/-- Witness for C10 amended at the counterexample's own output turn. -/
theorem C10_witness :
    ("Host", "Guest: hi") ∈ parse_script "Host: Guest: hi"
      ∧ hasLabel (String.toList "Guest: hi").tail = false :=
  ⟨by decide,
    C10_labels_anywhere_amended.1 "Host: Guest: hi" "Host" "Guest: hi" (by decide)⟩
